import Mathlib

/-!
Verification of the `map` gene of the pure-lambda repository
(`src/genes/map/manifestations/py/map.py`).

The whole repository is one Python file defining

  def map_gene(xs, f):
      return [f(x) for x in xs]

together with a static metadata record `__gene__`, three inline
property-test laws (`Laws.length_preservation`, `Laws.identity`,
`Laws.composition_fusion`) and a standalone demonstration block.

We embed the list comprehension as structural recursion over the input
list, evaluated left to right exactly as Python does.  Exception
propagation is modelled with `Except`; the call-by-reference object
level (needed for the non-mutation / fresh-result contract) is modelled
by a tiny heap of list objects; the order and number of invocations of
`f` is modelled by a trace-collecting variant; termination is modelled
by a fuel-indexed variant.
-/

namespace PureLambda

/-- `map_gene(xs, f)` from `map.py`: `return [f(x) for x in xs]`.
A Python list comprehension walks `xs` left to right, applies `f` to
each element and conses the results into a fresh list, which is exactly
this structural recursion. -/
def map_gene {α β : Type} (xs : List α) (f : α → β) : List β :=
  match xs with
  | [] => []
  | x :: t => f x :: map_gene t f

/-- The static `__gene__` metadata record of `map.py`. -/
structure GeneMeta where
  name : String
  lang : String
  extracts_to : String
  soul : String
deriving DecidableEq

/-- The `__gene__` dictionary literal of `map.py`. -/
def gene : GeneMeta :=
  { name := "map"
  , lang := "py"
  , extracts_to := "λxs.λf.case(xs, nil:nil, cons(h,t):cons(f(h), map(t,f)))"
  , soul := "λ7a3f9b2c" }

/-- `Laws.length_preservation` from `map.py`:
`len(map_gene(xs, f)) == len(xs)`. -/
def Laws.length_preservation {α β : Type} (xs : List α) (f : α → β) : Bool :=
  (map_gene xs f).length == xs.length

/-- `Laws.identity` from `map.py`: `map_gene(xs, lambda x: x) == xs`. -/
def Laws.identity {α : Type} [BEq α] (xs : List α) : Bool :=
  map_gene xs (fun x => x) == xs

/-- `Laws.composition_fusion` from `map.py`:
`map_gene(map_gene(xs, f), g) == map_gene(xs, lambda x: g(f(x)))`. -/
def Laws.composition_fusion {α β γ : Type} [BEq γ]
    (xs : List α) (f : α → β) (g : β → γ) : Bool :=
  map_gene (map_gene xs f) g == map_gene xs (fun x => g (f x))

/-- `map_gene` with a transformation that may fail, modelling a Python
`f` that can raise.  The comprehension evaluates `f` on the elements
left to right; the first raised exception aborts the comprehension and
propagates, and no list object is returned to the caller.  `Except ε`
carries the propagated failure. -/
def mapGeneExc {α β ε : Type} (xs : List α) (f : α → Except ε β) :
    Except ε (List β) :=
  match xs with
  | [] => .ok []
  | x :: t =>
    match f x with
    | .error e => .error e
    | .ok y =>
      match mapGeneExc t f with
      | .error e => .error e
      | .ok ys => .ok (y :: ys)

/-- `map_gene` instrumented with the trace of arguments on which `f` is
invoked, in invocation order.  The comprehension calls `f` once per
element, left to right. -/
def mapGeneTrace {α β : Type} (xs : List α) (f : α → β) :
    List β × List α :=
  match xs with
  | [] => ([], [])
  | x :: t =>
    let r := mapGeneTrace t f
    (f x :: r.1, x :: r.2)

/-- A heap of Python list objects: addresses are indices into the
store; allocation appends at the end. -/
structure Heap (α : Type) where
  store : List (List α)

/-- Dereference an address in the heap. -/
def Heap.lookup {α : Type} (h : Heap α) (a : Nat) : Option (List α) :=
  h.store.get? a

/-- The call `map_gene(xs, f)` at the Python object level, where `a`
is the address of the argument list `xs`.  The comprehension never
writes through `a`; it allocates a fresh list object holding the
result and returns its (new) address. -/
def mapGeneCall {α : Type} (h : Heap α) (a : Nat) (f : α → α) :
    Heap α × Nat :=
  (⟨h.store ++ [map_gene ((h.lookup a).getD []) f]⟩, h.store.length)

/-- `map_gene` with explicit fuel: one unit of fuel is consumed per
element, so recursion depth is bounded by the length of the input. -/
def mapGeneFuel {α β : Type} (fuel : Nat) (xs : List α) (f : α → β) :
    Option (List β) :=
  match fuel, xs with
  | _, [] => some []
  | 0, _ :: _ => none
  | fuel + 1, x :: t => (mapGeneFuel fuel t f).map (fun ys => f x :: ys)

/-- The demonstration test vector `test_xs = [1, 2, 3, 4, 5]`. -/
def test_xs : List Nat := [1, 2, 3, 4, 5]

/-- The demonstration transformation `test_f = lambda x: x * 2`. -/
def test_f : Nat → Nat := fun x => x * 2

/-- `result = map_gene(test_xs, test_f)` from the demonstration block. -/
def demoResult : List Nat := map_gene test_xs test_f

/-- The three lines printed by the `__main__` block, in order. -/
def demoLines : List String :=
  [ "Input: " ++ toString test_xs
  , "Result: " ++ toString demoResult
  , "Soul verified: " ++ gene.soul ]

/- ### Helper lemmas -/

/-- The embedded comprehension agrees with the library map. -/
theorem map_gene_eq_map {α β : Type} (xs : List α) (f : α → β) :
    map_gene xs f = xs.map f := by
  induction xs with
  | nil => rfl
  | cons x t ih => simp [map_gene, ih]

theorem map_gene_length {α β : Type} (xs : List α) (f : α → β) :
    (map_gene xs f).length = xs.length := by
  simp [map_gene_eq_map]

/- ### Claims -/

/-- C1: for every sequence `xs` and function `f`, `map_gene xs f` has
the same length as `xs`, its `i`-th element is `f` of the `i`-th
element of `xs` for every valid index `i`, and the inline law
`Laws.length_preservation` holds. -/
theorem map_gene_pointwise {α β : Type} (xs : List α) (f : α → β) :
    (map_gene xs f).length = xs.length ∧
    (∀ i : Nat, ∀ h : i < xs.length, ∀ h2 : i < (map_gene xs f).length,
      (map_gene xs f).get ⟨i, h2⟩ = f (xs.get ⟨i, h⟩)) ∧
    Laws.length_preservation xs f = true := by
  refine ⟨map_gene_length xs f, ?_, ?_⟩
  · intro i h h2
    simp [map_gene_eq_map, List.get_eq_getElem]
  · simp [Laws.length_preservation, map_gene_length]

/-- C1 witness: the pointwise contract at `xs = [10, 20, 30]`,
`f = (· + 1)`, `i = 1`. -/
theorem map_gene_pointwise_witness :
    (map_gene [10, 20, 30] (fun x => x + 1)).get ⟨1, by decide⟩ =
      (fun x => x + 1) (([10, 20, 30] : List Nat).get ⟨1, by decide⟩) :=
  (map_gene_pointwise [10, 20, 30] (fun x => x + 1)).2.1 1
    (by decide) (by decide)

/-- C7: mapping over the empty sequence yields the empty sequence, for
any transformation `f`. -/
theorem map_gene_nil {α β : Type} (f : α → β) :
    map_gene ([] : List α) f = [] := rfl

/-- C3: the identity law: `map_gene xs (fun x => x) = xs` element-wise
in the same order, and the inline boolean law `Laws.identity` holds. -/
theorem map_gene_identity {α : Type} [BEq α] [LawfulBEq α]
    (xs : List α) :
    map_gene xs (fun x => x) = xs ∧ Laws.identity xs = true := by
  have h : map_gene xs (fun x => x) = xs := by
    simp [map_gene_eq_map]
  exact ⟨h, by simp [Laws.identity, h]⟩

/-- C3 witness: the identity law at `xs = [1, 2, 3]`. -/
theorem map_gene_identity_witness :
    map_gene [1, 2, 3] (fun x => x) = ([1, 2, 3] : List Nat) ∧
      Laws.identity ([1, 2, 3] : List Nat) = true :=
  map_gene_identity [1, 2, 3]

/-- C4: the map-fusion law: mapping `f` then `g` equals mapping the
composition `fun x => g (f x)` in one pass, and the inline boolean law
`Laws.composition_fusion` holds. -/
theorem map_gene_fusion {α β γ : Type} [BEq γ] [LawfulBEq γ]
    (xs : List α) (f : α → β) (g : β → γ) :
    map_gene (map_gene xs f) g = map_gene xs (fun x => g (f x)) ∧
      Laws.composition_fusion xs f g = true := by
  have h : map_gene (map_gene xs f) g = map_gene xs (fun x => g (f x)) := by
    simp [map_gene_eq_map]
  exact ⟨h, by simp [Laws.composition_fusion, h]⟩

/-- C4 witness: the fusion law at `xs = [1, 2, 3]`, `f = (· + 1)`,
`g = (· * 3)`, the scenario of the spec (result `[6, 9, 12]`). -/
theorem map_gene_fusion_witness :
    (map_gene (map_gene [1, 2, 3] (fun x => x + 1)) (fun x => x * 3) =
        map_gene ([1, 2, 3] : List Nat) (fun x => (x + 1) * 3) ∧
      Laws.composition_fusion ([1, 2, 3] : List Nat)
        (fun x => x + 1) (fun x => x * 3) = true) :=
  map_gene_fusion [1, 2, 3] (fun x => x + 1) (fun x => x * 3)

/-- C2: when `f` fails on some element, `map_gene` fails with the
failure propagated at the first failing element (everything before it
succeeded) and returns no partial output list; when `f` succeeds on
every element of `xs` — in particular on the empty sequence — the call
succeeds.  The spec's single failure class `TransformationError` is the
`Except.error` carrying the failure raised by `f`. -/
theorem mapGeneExc_semantics {α β ε : Type} (xs : List α)
    (f : α → Except ε β) :
    ((∀ x ∈ xs, ∃ y, f x = .ok y) → ∃ ys, mapGeneExc xs f = .ok ys) ∧
    (∀ pre x post e, xs = pre ++ x :: post →
      (∀ a ∈ pre, ∃ y, f a = .ok y) → f x = .error e →
      mapGeneExc xs f = .error e) := by
  constructor
  · intro hok
    induction xs with
    | nil => exact ⟨[], rfl⟩
    | cons x t ih =>
      obtain ⟨y, hy⟩ := hok x (List.mem_cons_self x t)
      obtain ⟨ys, hys⟩ := ih (fun a ha => hok a (List.mem_cons_of_mem x ha))
      exact ⟨y :: ys, by simp [mapGeneExc, hy, hys]⟩
  · intro pre x post e hsplit hpre hx
    subst hsplit
    induction pre with
    | nil => simp [mapGeneExc, hx]
    | cons p pt ih =>
      obtain ⟨y, hy⟩ := hpre p (List.mem_cons_self p pt)
      have ht := ih (fun a ha => hpre a (List.mem_cons_of_mem p ha))
      simp [mapGeneExc, hy, ht]

/-- C2 witness: over `[1, 0, 2]` with `f` failing exactly on `0`, the
call fails with the failure of the element at index 1; over `[1, 2]`
and over `[]` it succeeds. -/
theorem mapGeneExc_semantics_witness :
    mapGeneExc [1, 0, 2]
        (fun n => if n = 0 then Except.error "boom" else Except.ok n) =
      Except.error "boom" ∧
    (∃ ys, mapGeneExc ([1, 2] : List Nat)
        (fun n => if n = 0 then Except.error "boom" else Except.ok n) =
      Except.ok ys) ∧
    (∃ ys, mapGeneExc ([] : List Nat)
        (fun n => if n = 0 then Except.error "boom" else Except.ok n) =
      Except.ok ys) := by
  refine ⟨?_, ?_, ?_⟩
  · exact (mapGeneExc_semantics [1, 0, 2]
      (fun n => if n = 0 then Except.error "boom" else Except.ok n)).2
      [1] 0 [2] "boom" rfl
      (by intro a ha; rw [List.mem_singleton.mp ha]; exact ⟨1, rfl⟩) rfl
  · exact (mapGeneExc_semantics [1, 2]
      (fun n => if n = 0 then Except.error "boom" else Except.ok n)).1
      (by intro x hx; fin_cases hx; exacts [⟨1, rfl⟩, ⟨2, rfl⟩])
  · exact (mapGeneExc_semantics []
      (fun n => if n = 0 then Except.error "boom" else Except.ok n)).1
      (by intro x hx; exact absurd hx (List.not_mem_nil x))

/-- C6: `map_gene` invokes `f` exactly once per element, left to right:
the trace of arguments passed to `f` is exactly `xs`, while the value
computed is the usual result. -/
theorem mapGeneTrace_spec {α β : Type} (xs : List α) (f : α → β) :
    (mapGeneTrace xs f).2 = xs ∧ (mapGeneTrace xs f).1 = map_gene xs f := by
  induction xs with
  | nil => exact ⟨rfl, rfl⟩
  | cons x t ih => simp [mapGeneTrace, map_gene, ih.1, ih.2]

/-- C5: the call never mutates the input list object and returns a
fresh one: after `mapGeneCall h a f`, every previously allocated
object — in particular the input at `a` — dereferences to exactly what
it held before, the returned address is distinct from `a`, and it holds
`map_gene` of the input's contents. -/
theorem mapGeneCall_frame {α : Type} (h : Heap α) (a : Nat) (f : α → α)
    (ha : a < h.store.length) :
    (mapGeneCall h a f).1.lookup a = h.lookup a ∧
    (∀ b, b < h.store.length →
      (mapGeneCall h a f).1.lookup b = h.lookup b) ∧
    (mapGeneCall h a f).2 ≠ a ∧
    (mapGeneCall h a f).1.lookup (mapGeneCall h a f).2 =
      some (map_gene ((h.lookup a).getD []) f) := by
  have frame : ∀ b, b < h.store.length →
      (mapGeneCall h a f).1.lookup b = h.lookup b := by
    intro b hb
    simp [mapGeneCall, Heap.lookup, List.getElem?_append_left hb]
  refine ⟨frame a ha, frame, ?_, ?_⟩
  · exact fun hcontra => absurd (hcontra ▸ ha) (lt_irrefl _)
  · simp [mapGeneCall, Heap.lookup, List.getElem?_concat_length]

/-- C5 witness: on the heap holding the single list `[1, 2, 3]` at
address 0, the call leaves address 0 unchanged, allocates address 1 and
stores the doubled list there. -/
theorem mapGeneCall_frame_witness :
    (mapGeneCall ⟨[[1, 2, 3]]⟩ 0 (fun x => x * 2)).1.lookup 0 =
        Heap.lookup ⟨[[1, 2, 3]]⟩ 0 ∧
      (mapGeneCall (⟨[[1, 2, 3]]⟩ : Heap Nat) 0 (fun x => x * 2)).2 ≠ 0 := by
  have h := mapGeneCall_frame (⟨[[1, 2, 3]]⟩ : Heap Nat) 0
    (fun x => x * 2) (by decide)
  exact ⟨h.1, h.2.2.1⟩

/-- C9: the recursion of `map_gene` is bounded by the length of the
input: with fuel equal to `xs.length` the fuel-indexed evaluator
terminates and computes `map_gene xs f`. -/
theorem mapGeneFuel_terminates {α β : Type} (xs : List α) (f : α → β) :
    mapGeneFuel xs.length xs f = some (map_gene xs f) := by
  induction xs with
  | nil => rfl
  | cons x t ih => simp [mapGeneFuel, map_gene, ih]

/-- C10: `map_gene` is deterministic: its output depends only on the
elements of the input sequence and on `f`; two invocations on
element-wise equal sequences give element-wise equal results. -/
theorem map_gene_deterministic {α β : Type} (xs ys : List α)
    (f : α → β) (hlen : xs.length = ys.length)
    (helt : ∀ i : Nat, ∀ hx : i < xs.length, ∀ hy : i < ys.length,
      xs.get ⟨i, hx⟩ = ys.get ⟨i, hy⟩) :
    map_gene xs f = map_gene ys f := by
  have hxy : xs = ys := by
    apply List.ext_get hlen
    intro i hx hy
    exact helt i hx hy
  rw [hxy]

/-- C10 witness: two invocations on (equal) sequences `[1, 2]` give the
same doubled result. -/
theorem map_gene_deterministic_witness :
    map_gene [1, 2] (fun x => x * 2) =
      map_gene ([1, 2] : List Nat) (fun x => x * 2) :=
  map_gene_deterministic [1, 2] [1, 2] (fun x => x * 2) rfl
    (fun _ _ _ => rfl)

/-- C8: the demonstration computes `[2, 4, 6, 8, 10]` from
`[1, 2, 3, 4, 5]` under multiply-by-2 and prints, in order, the literal
input sequence, the literal result sequence, and the soul identifier
string. -/
theorem demo_output :
    demoResult = [2, 4, 6, 8, 10] ∧
    demoLines = [ "Input: [1, 2, 3, 4, 5]"
                , "Result: [2, 4, 6, 8, 10]"
                , "Soul verified: λ7a3f9b2c" ] := by
  constructor
  · rfl
  · rfl

end PureLambda
